import Mathlib

/-!
Verification of the ad-layout and composition engine of the Lunarian backend
(`src/backend/main.py`): hero-aware cropping/scaling onto target canvases,
font-size binary search, greedy word wrap, stacking order, position-key
resolution, and safe-area derivation.

Python floats are modelled as exact rationals (`ℚ`), Python `int()` as
truncation toward zero (`pyInt`), Python `//` as floor division (`Int.fdiv`),
and PIL images as records of width, height and a total pixel function.  The
LANCZOS resampling kernel is kept abstract: every definition that resizes an
image takes a `resample` function as an explicit parameter, and theorems
quantify over it.
-/

/-- Python `int(q)` on a float value: truncation toward zero. -/
def pyInt (q : ℚ) : ℤ := if 0 ≤ q then ⌊q⌋ else ⌈q⌉

/-- Python slicing `s[:n]` for a (possibly negative) bound `n`. -/
def pyTake {α : Type} (n : ℤ) (l : List α) : List α :=
  if 0 ≤ n then l.take n.toNat else l.take (l.length - (-n).toNat)

theorem pyInt_of_nonneg {q : ℚ} (h : 0 ≤ q) : pyInt q = ⌊q⌋ := if_pos h

theorem pyInt_nonneg {q : ℚ} (h : 0 ≤ q) : 0 ≤ pyInt q := by
  rw [pyInt_of_nonneg h]; exact Int.floor_nonneg.mpr h

/-- An RGBA pixel, one integer channel each. -/
abbrev Pixel := ℤ × ℤ × ℤ × ℤ

/-- A PIL image: width, height, a total pixel lookup (meaningful on
`[0,w) × [0,h)`), and a mode string. -/
structure Img where
  w : ℤ
  h : ℤ
  px : ℤ → ℤ → Pixel
  mode : String

/-- A resampling kernel: given a source image and target dimensions, the
pixel at a coordinate of the resized image.  Stands in for PIL's LANCZOS
filter, which we keep abstract. -/
abbrev Resample := Img → ℤ → ℤ → ℤ → ℤ → Pixel

/-- `Image.new("RGBA", (w, h), bg)`. -/
def Img.new (w h : ℤ) (bg : Pixel) : Img := ⟨w, h, fun _ _ => bg, "RGBA"⟩

/-- `img.resize((w, h), Image.LANCZOS)` with an abstract kernel. -/
def Img.resize (resample : Resample) (img : Img) (w h : ℤ) : Img :=
  ⟨w, h, fun x y => resample img w h x y, img.mode⟩

/-- `img.crop((l, t, r, b))`. -/
def Img.crop (img : Img) (l t r b : ℤ) : Img :=
  ⟨r - l, b - t, fun x y => img.px (x + l) (y + t), img.mode⟩

/-- `canvas.paste(p, (a, b))`: the canvas with the rectangle of `p` at
offset `(a, b)` overwritten by `p`'s pixels. -/
def Img.paste (canvas : Img) (p : Img) (a b : ℤ) : Img :=
  ⟨canvas.w, canvas.h,
   fun x y =>
     if a ≤ x ∧ x < a + p.w ∧ b ≤ y ∧ y < b + p.h then p.px (x - a) (y - b)
     else canvas.px x y,
   canvas.mode⟩

/-- `main.py:175,193` — `scale = max(tw / iw if iw > 0 else 1, th / ih if ih > 0 else 1)`. -/
def scale_to_cover_canvas (tw th iw ih : ℤ) : ℚ :=
  max (if 0 < iw then (tw : ℚ) / iw else 1) (if 0 < ih then (th : ℚ) / ih else 1)

/-- `main.py:189-191` — `scale_for_hero = min(hero_area_w*p/h_w, hero_area_h*p/h_h)`.
The `float("inf")` guards of the source are dead on the path where this is
evaluated, since `h_w > 0` and `h_h > 0` have already been checked at line 186. -/
def scale_for_hero (hero_area_w hero_area_h h_w h_h : ℤ) (p : ℚ) : ℚ :=
  min ((hero_area_w * p) / h_w) ((hero_area_h * p) / h_h)

/-- `main.py:195` — `final_scale = max(scale_for_hero, scale_to_cover_canvas)`. -/
def final_scale (tw th iw ih hero_area_w hero_area_h h_w h_h : ℤ) (p : ℚ) : ℚ :=
  max (scale_for_hero hero_area_w hero_area_h h_w h_h p)
      (scale_to_cover_canvas tw th iw ih)

/-- `main.py:174-180` — the no-usable-hero regime: cover-scale the source,
center-crop to the target, paste at the canvas origin. -/
def noHeroBranch (resample : Resample) (src : Img) (tw th : ℤ) (bg : Pixel) :
    Img :=
  let canvas := Img.new tw th bg
  let scale := scale_to_cover_canvas tw th src.w src.h
  let rw := pyInt (src.w * scale)
  let rh := pyInt (src.h * scale)
  let img2 := Img.resize resample src rw rh
  let cx := (rw - tw).fdiv 2
  let cy := (rh - th).fdiv 2
  canvas.paste (img2.crop (max 0 cx) (max 0 cy) (min rw (cx + tw)) (min rh (cy + th))) 0 0

/-- Geometry of the usable-hero regime (`main.py:182-210`): resized
dimensions (bumped to at least the target) and the clamped crop origin. -/
structure HeroGeom where
  scaled_iw : ℤ
  scaled_ih : ℤ
  crop_x : ℚ
  crop_y : ℚ

/-- `main.py:182-210` — the intermediate geometry of the usable-hero regime. -/
def heroGeom (tw th iw ih x1 y1 x2 y2 hero_area_x hero_area_y hero_area_w hero_area_h : ℤ)
    (p : ℚ) : HeroGeom :=
  let h_w := x2 - x1
  let h_h := y2 - y1
  let hcx : ℚ := x1 + (h_w : ℚ) / 2
  let hcy : ℚ := y1 + (h_h : ℚ) / 2
  let fs := final_scale tw th iw ih hero_area_w hero_area_h h_w h_h p
  let siw := max tw (pyInt (iw * fs))
  let sih := max th (pyInt (ih * fs))
  let target_cx : ℚ := hero_area_x + (hero_area_w : ℚ) / 2
  let target_cy : ℚ := hero_area_y + (hero_area_h : ℚ) / 2
  let cx0 := hcx * fs - target_cx
  let cy0 := hcy * fs - target_cy
  ⟨siw, sih, max 0 (min cx0 ((siw : ℚ) - tw)), max 0 (min cy0 ((sih : ℚ) - th))⟩

/-- `main.py:197-214` — usable-hero regime: resize by the final scale (bumped
to at least target size), crop the target-sized window whose center tracks the
hero, paste at the canvas origin. -/
def heroBranch (resample : Resample) (src : Img) (tw th x1 y1 x2 y2
    hero_area_x hero_area_y hero_area_w hero_area_h : ℤ) (p : ℚ) (bg : Pixel) :
    Img :=
  let canvas := Img.new tw th bg
  let g := heroGeom tw th src.w src.h x1 y1 x2 y2 hero_area_x hero_area_y
    hero_area_w hero_area_h p
  let img_resized := Img.resize resample src g.scaled_iw g.scaled_ih
  let final_img_to_paste := img_resized.crop (pyInt g.crop_x) (pyInt g.crop_y)
    (pyInt (g.crop_x + tw)) (pyInt (g.crop_y + th))
  canvas.paste final_img_to_paste 0 0

/-- `main.py:158-214` — `create_base_canvas_with_hero`.  A degenerate hero
bbox recurses with `hero_bbox = None` and the default prominence `0.7`,
exactly as the source does at line 187. -/
def create_base_canvas_with_hero (resample : Resample) (src : Img) (tw th : ℤ)
    (hero_bbox : Option (ℤ × ℤ × ℤ × ℤ))
    (hero_area_x hero_area_y hero_area_w hero_area_h : ℤ)
    (hero_prominence : ℚ) (bg_color : Pixel) : Img :=
  if src.w = 0 ∨ src.h = 0 then Img.new tw th bg_color
  else
    match hero_bbox with
    | none => noHeroBranch resample src tw th bg_color
    | some (x1, y1, x2, y2) =>
      if hero_area_w ≤ 0 ∨ hero_area_h ≤ 0 then
        noHeroBranch resample src tw th bg_color
      else if x2 - x1 ≤ 0 ∨ y2 - y1 ≤ 0 then
        create_base_canvas_with_hero resample src tw th none hero_area_x
          hero_area_y hero_area_w hero_area_h (7/10) bg_color
      else
        heroBranch resample src tw th x1 y1 x2 y2 hero_area_x hero_area_y
          hero_area_w hero_area_h hero_prominence bg_color
termination_by (if hero_bbox.isSome then 1 else 0)
decreasing_by simp

theorem create_base_canvas_none (resample : Resample) (src : Img) (tw th : ℤ)
    (hax hay haw hah : ℤ) (p : ℚ) (bg : Pixel) :
    create_base_canvas_with_hero resample src tw th none hax hay haw hah p bg =
      if src.w = 0 ∨ src.h = 0 then Img.new tw th bg
      else noHeroBranch resample src tw th bg := by
  rw [create_base_canvas_with_hero]

theorem create_base_canvas_some (resample : Resample) (src : Img)
    (tw th x1 y1 x2 y2 hax hay haw hah : ℤ) (p : ℚ) (bg : Pixel) :
    create_base_canvas_with_hero resample src tw th (some (x1, y1, x2, y2))
      hax hay haw hah p bg =
      if src.w = 0 ∨ src.h = 0 then Img.new tw th bg
      else if haw ≤ 0 ∨ hah ≤ 0 then noHeroBranch resample src tw th bg
      else if x2 - x1 ≤ 0 ∨ y2 - y1 ≤ 0 then
        create_base_canvas_with_hero resample src tw th none hax hay haw hah
          (7/10) bg
      else heroBranch resample src tw th x1 y1 x2 y2 hax hay haw hah p bg := by
  conv_lhs => rw [create_base_canvas_with_hero]

theorem pyInt_le_of_le {q : ℚ} {n : ℤ} (h : q ≤ n) : pyInt q ≤ n := by
  unfold pyInt
  split
  · calc ⌊q⌋ ≤ ⌊(n : ℚ)⌋ := Int.floor_le_floor h
    _ = n := Int.floor_intCast n
  · exact Int.ceil_le.mpr h

theorem int_le_pyInt {n : ℤ} {q : ℚ} (h : (n : ℚ) ≤ q) (hq : 0 ≤ q) :
    n ≤ pyInt q := by
  rw [pyInt_of_nonneg hq]
  exact Int.le_floor.mpr h

/-- C10: on every branch — zero-area source, no hero, degenerate hero-area,
degenerate hero bbox, usable hero — `create_base_canvas_with_hero` returns an
RGBA image of exactly the requested target dimensions. -/
theorem create_base_canvas_dims (resample : Resample) (src : Img) (tw th : ℤ)
    (hero_bbox : Option (ℤ × ℤ × ℤ × ℤ)) (hax hay haw hah : ℤ) (p : ℚ)
    (bg : Pixel) :
    (create_base_canvas_with_hero resample src tw th hero_bbox hax hay haw hah p bg).w = tw ∧
    (create_base_canvas_with_hero resample src tw th hero_bbox hax hay haw hah p bg).h = th ∧
    (create_base_canvas_with_hero resample src tw th hero_bbox hax hay haw hah p bg).mode = "RGBA" := by
  cases hero_bbox with
  | none =>
    rw [create_base_canvas_none]
    split <;> exact ⟨rfl, rfl, rfl⟩
  | some b =>
    obtain ⟨x1, y1, x2, y2⟩ := b
    rw [create_base_canvas_with_hero]
    split
    · exact ⟨rfl, rfl, rfl⟩
    · split
      · exact ⟨rfl, rfl, rfl⟩
      · split
        · rw [create_base_canvas_none]
          split <;> exact ⟨rfl, rfl, rfl⟩
        · exact ⟨rfl, rfl, rfl⟩

/-- C2: a degenerate hero bbox (`x2 ≤ x1` or `y2 ≤ y1`) produces exactly the
same canvas as passing no hero bbox at all, for every source image, target
size, hero-area rectangle, prominence and background color. -/
theorem create_base_canvas_degenerate_eq_none (resample : Resample) (src : Img)
    (tw th x1 y1 x2 y2 hax hay haw hah : ℤ) (p : ℚ) (bg : Pixel)
    (hdeg : x2 ≤ x1 ∨ y2 ≤ y1) :
    create_base_canvas_with_hero resample src tw th (some (x1, y1, x2, y2))
      hax hay haw hah p bg =
    create_base_canvas_with_hero resample src tw th none hax hay haw hah p bg := by
  have hd : x2 - x1 ≤ 0 ∨ y2 - y1 ≤ 0 := by omega
  by_cases hsz : src.w = 0 ∨ src.h = 0
  · simp only [create_base_canvas_some, create_base_canvas_none, if_pos hsz]
  · by_cases harea : haw ≤ 0 ∨ hah ≤ 0
    · simp only [create_base_canvas_some, create_base_canvas_none, if_neg hsz,
        if_pos harea]
    · simp only [create_base_canvas_some, create_base_canvas_none, if_neg hsz,
        if_neg harea, if_pos hd]

/-- C2 witness: a concrete degenerate bbox input. -/
theorem create_base_canvas_degenerate_eq_none_witness :
    ((3 : ℤ) ≤ 3 ∨ (7 : ℤ) ≤ 2) ∧
    create_base_canvas_with_hero (fun _ _ _ _ _ => (0, 0, 0, 0))
      ⟨5, 4, fun _ _ => (9, 9, 9, 255), "RGBA"⟩ 2 3 (some (3, 2, 3, 7))
      0 0 2 3 (7/10) (255, 255, 255, 0) =
    create_base_canvas_with_hero (fun _ _ _ _ _ => (0, 0, 0, 0))
      ⟨5, 4, fun _ _ => (9, 9, 9, 255), "RGBA"⟩ 2 3 none
      0 0 2 3 (7/10) (255, 255, 255, 0) :=
  ⟨Or.inl le_rfl,
   create_base_canvas_degenerate_eq_none _ _ _ _ _ _ _ _ _ _ _ _ _ _
     (Or.inl le_rfl)⟩

/-- C1: the cover guarantee.  For a source of positive dimensions, the scale
used by the no-hero regime equals (hence is at least) the cover scale
`max(tw/iw, th/ih)`, and the usable-hero regime's `final_scale` is at least
the cover scale: hero prominence can only increase the scale, never decrease
it below cover. -/
theorem final_scale_ge_cover (tw th iw ih haw hah hw hh : ℤ) (p : ℚ)
    (hiw : 0 < iw) (hih : 0 < ih) :
    max ((tw : ℚ) / iw) ((th : ℚ) / ih) ≤ scale_to_cover_canvas tw th iw ih ∧
    max ((tw : ℚ) / iw) ((th : ℚ) / ih) ≤ final_scale tw th iw ih haw hah hw hh p ∧
    scale_to_cover_canvas tw th iw ih ≤ final_scale tw th iw ih haw hah hw hh p := by
  unfold final_scale scale_to_cover_canvas
  rw [if_pos hiw, if_pos hih]
  exact ⟨le_refl _, le_max_right _ _, le_max_right _ _⟩

/-- C1 witness: concrete positive source dimensions. -/
theorem final_scale_ge_cover_witness :
    ((0 : ℤ) < 10 ∧ (0 : ℤ) < 5) ∧
    max ((100 : ℚ) / (10 : ℤ)) ((50 : ℚ) / (5 : ℤ)) ≤
      final_scale 100 50 10 5 30 40 2 3 (7/10) :=
  ⟨⟨by norm_num, by norm_num⟩,
   (final_scale_ge_cover 100 50 10 5 30 40 2 3 (7/10) (by norm_num)
     (by norm_num)).2.1⟩

/-- C4: in the usable-hero regime the clamped crop rectangle
`(crop_x, crop_y, crop_x + tw, crop_y + th)` is never negative and never
exceeds the resized image bounds, both as the exact clamped rationals and
after the `int(...)` truncation used to build the crop box — for every input,
using that the resized dimensions are bumped to at least the target size. -/
theorem heroGeom_crop_clamped (tw th iw ih x1 y1 x2 y2 hax hay haw hah : ℤ)
    (p : ℚ) :
    0 ≤ (heroGeom tw th iw ih x1 y1 x2 y2 hax hay haw hah p).crop_x ∧
    (heroGeom tw th iw ih x1 y1 x2 y2 hax hay haw hah p).crop_x + tw ≤
      ((heroGeom tw th iw ih x1 y1 x2 y2 hax hay haw hah p).scaled_iw : ℚ) ∧
    0 ≤ (heroGeom tw th iw ih x1 y1 x2 y2 hax hay haw hah p).crop_y ∧
    (heroGeom tw th iw ih x1 y1 x2 y2 hax hay haw hah p).crop_y + th ≤
      ((heroGeom tw th iw ih x1 y1 x2 y2 hax hay haw hah p).scaled_ih : ℚ) ∧
    0 ≤ pyInt (heroGeom tw th iw ih x1 y1 x2 y2 hax hay haw hah p).crop_x ∧
    pyInt ((heroGeom tw th iw ih x1 y1 x2 y2 hax hay haw hah p).crop_x + tw) ≤
      (heroGeom tw th iw ih x1 y1 x2 y2 hax hay haw hah p).scaled_iw ∧
    0 ≤ pyInt (heroGeom tw th iw ih x1 y1 x2 y2 hax hay haw hah p).crop_y ∧
    pyInt ((heroGeom tw th iw ih x1 y1 x2 y2 hax hay haw hah p).crop_y + th) ≤
      (heroGeom tw th iw ih x1 y1 x2 y2 hax hay haw hah p).scaled_ih := by
  unfold heroGeom
  simp only
  set fs := final_scale tw th iw ih haw hah (x2 - x1) (y2 - y1) p with hfs
  have hsw : (tw : ℚ) ≤ ((max tw (pyInt (iw * fs)) : ℤ) : ℚ) := by
    exact_mod_cast le_max_left tw (pyInt (iw * fs))
  have hsh : (th : ℚ) ≤ ((max th (pyInt (ih * fs)) : ℤ) : ℚ) := by
    exact_mod_cast le_max_left th (pyInt (ih * fs))
  have hx0 : (0 : ℚ) ≤ max 0 (min ((x1 + (x2 - x1 : ℤ) / 2 : ℚ) * fs -
      (hax + (haw : ℚ) / 2)) (((max tw (pyInt (iw * fs)) : ℤ) : ℚ) - tw)) :=
    le_max_left _ _
  have hy0 : (0 : ℚ) ≤ max 0 (min ((y1 + (y2 - y1 : ℤ) / 2 : ℚ) * fs -
      (hay + (hah : ℚ) / 2)) (((max th (pyInt (ih * fs)) : ℤ) : ℚ) - th)) :=
    le_max_left _ _
  have hxub : max 0 (min ((x1 + (x2 - x1 : ℤ) / 2 : ℚ) * fs -
      (hax + (haw : ℚ) / 2)) (((max tw (pyInt (iw * fs)) : ℤ) : ℚ) - tw)) + tw ≤
      ((max tw (pyInt (iw * fs)) : ℤ) : ℚ) := by
    have := max_le (a := (0 : ℚ))
      (b := min ((x1 + (x2 - x1 : ℤ) / 2 : ℚ) * fs - (hax + (haw : ℚ) / 2))
        (((max tw (pyInt (iw * fs)) : ℤ) : ℚ) - tw))
      (c := ((max tw (pyInt (iw * fs)) : ℤ) : ℚ) - tw)
      (by linarith) (min_le_right _ _)
    linarith
  have hyub : max 0 (min ((y1 + (y2 - y1 : ℤ) / 2 : ℚ) * fs -
      (hay + (hah : ℚ) / 2)) (((max th (pyInt (ih * fs)) : ℤ) : ℚ) - th)) + th ≤
      ((max th (pyInt (ih * fs)) : ℤ) : ℚ) := by
    have := max_le (a := (0 : ℚ))
      (b := min ((y1 + (y2 - y1 : ℤ) / 2 : ℚ) * fs - (hay + (hah : ℚ) / 2))
        (((max th (pyInt (ih * fs)) : ℤ) : ℚ) - th))
      (c := ((max th (pyInt (ih * fs)) : ℤ) : ℚ) - th)
      (by linarith) (min_le_right _ _)
    linarith
  exact ⟨hx0, hxub, hy0, hyub, pyInt_nonneg hx0, pyInt_le_of_le hxub,
    pyInt_nonneg hy0, pyInt_le_of_le hyub⟩

theorem Img.paste_origin_px (c p : Img) (x y : ℤ) (hx0 : 0 ≤ x) (hx : x < p.w)
    (hy0 : 0 ≤ y) (hy : y < p.h) : (c.paste p 0 0).px x y = p.px x y := by
  show (if 0 ≤ x ∧ x < 0 + p.w ∧ 0 ≤ y ∧ y < 0 + p.h then p.px (x - 0) (y - 0)
    else c.px x y) = p.px x y
  rw [if_pos ⟨hx0, by omega, hy0, by omega⟩]
  norm_num

theorem noHeroBranch_eq (resample : Resample) (src : Img) (tw th : ℤ)
    (bg : Pixel) :
    noHeroBranch resample src tw th bg =
      Img.paste (Img.new tw th bg)
        ((Img.resize resample src
            (pyInt ((src.w : ℚ) * scale_to_cover_canvas tw th src.w src.h))
            (pyInt ((src.h : ℚ) * scale_to_cover_canvas tw th src.w src.h))).crop
          (max 0 ((pyInt ((src.w : ℚ) * scale_to_cover_canvas tw th src.w src.h) - tw).fdiv 2))
          (max 0 ((pyInt ((src.h : ℚ) * scale_to_cover_canvas tw th src.w src.h) - th).fdiv 2))
          (min (pyInt ((src.w : ℚ) * scale_to_cover_canvas tw th src.w src.h))
            ((pyInt ((src.w : ℚ) * scale_to_cover_canvas tw th src.w src.h) - tw).fdiv 2 + tw))
          (min (pyInt ((src.h : ℚ) * scale_to_cover_canvas tw th src.w src.h))
            ((pyInt ((src.h : ℚ) * scale_to_cover_canvas tw th src.w src.h) - th).fdiv 2 + th)))
        0 0 := rfl

theorem cover_paste_px (resample : Resample) (src : Img) (tw th R S : ℤ)
    (bg1 bg2 : Pixel) (x y : ℤ) (hR : tw ≤ R) (hS : th ≤ S)
    (hx0 : 0 ≤ x) (hx : x < tw) (hy0 : 0 ≤ y) (hy : y < th) :
    (Img.paste (Img.new tw th bg1) ((Img.resize resample src R S).crop
        (max 0 ((R - tw).fdiv 2)) (max 0 ((S - th).fdiv 2))
        (min R ((R - tw).fdiv 2 + tw)) (min S ((S - th).fdiv 2 + th))) 0 0).px x y =
    (Img.paste (Img.new tw th bg2) ((Img.resize resample src R S).crop
        (max 0 ((R - tw).fdiv 2)) (max 0 ((S - th).fdiv 2))
        (min R ((R - tw).fdiv 2 + tw)) (min S ((S - th).fdiv 2 + th))) 0 0).px x y := by
  have hfw : (R - tw).fdiv 2 = (R - tw) / 2 := Int.fdiv_eq_ediv _ (by norm_num)
  have hfh : (S - th).fdiv 2 = (S - th) / 2 := Int.fdiv_eq_ediv _ (by norm_num)
  have h1 : 0 ≤ (R - tw).fdiv 2 := by
    rw [hfw]; exact Int.ediv_nonneg (by omega) (by norm_num)
  have h2 : (R - tw).fdiv 2 ≤ R - tw := by
    rw [hfw]; exact Int.ediv_le_self 2 (by omega)
  have h3 : 0 ≤ (S - th).fdiv 2 := by
    rw [hfh]; exact Int.ediv_nonneg (by omega) (by norm_num)
  have h4 : (S - th).fdiv 2 ≤ S - th := by
    rw [hfh]; exact Int.ediv_le_self 2 (by omega)
  have hxw : x < ((Img.resize resample src R S).crop
      (max 0 ((R - tw).fdiv 2)) (max 0 ((S - th).fdiv 2))
      (min R ((R - tw).fdiv 2 + tw)) (min S ((S - th).fdiv 2 + th))).w := by
    show x < min R ((R - tw).fdiv 2 + tw) - max 0 ((R - tw).fdiv 2)
    rw [max_eq_right h1, min_eq_right (by omega)]
    omega
  have hyh : y < ((Img.resize resample src R S).crop
      (max 0 ((R - tw).fdiv 2)) (max 0 ((S - th).fdiv 2))
      (min R ((R - tw).fdiv 2 + tw)) (min S ((S - th).fdiv 2 + th))).h := by
    show y < min S ((S - th).fdiv 2 + th) - max 0 ((S - th).fdiv 2)
    rw [max_eq_right h3, min_eq_right (by omega)]
    omega
  rw [Img.paste_origin_px _ _ _ _ hx0 hxw hy0 hyh,
    Img.paste_origin_px _ _ _ _ hx0 hxw hy0 hyh]

theorem noHeroBranch_px_eq (resample : Resample) (src : Img) (tw th : ℤ)
    (bg1 bg2 : Pixel) (x y : ℤ) (hiw : 0 < src.w) (hih : 0 < src.h)
    (hx0 : 0 ≤ x) (hx : x < tw) (hy0 : 0 ≤ y) (hy : y < th) :
    (noHeroBranch resample src tw th bg1).px x y =
      (noHeroBranch resample src tw th bg2).px x y := by
  have htw : (0 : ℤ) < tw := lt_of_le_of_lt hx0 hx
  have hth : (0 : ℤ) < th := lt_of_le_of_lt hy0 hy
  have hiwQ : (0 : ℚ) < (src.w : ℚ) := by exact_mod_cast hiw
  have hihQ : (0 : ℚ) < (src.h : ℚ) := by exact_mod_cast hih
  have hsx : (tw : ℚ) / src.w ≤ scale_to_cover_canvas tw th src.w src.h := by
    unfold scale_to_cover_canvas
    rw [if_pos hiw, if_pos hih]
    exact le_max_left _ _
  have hsy : (th : ℚ) / src.h ≤ scale_to_cover_canvas tw th src.w src.h := by
    unfold scale_to_cover_canvas
    rw [if_pos hiw, if_pos hih]
    exact le_max_right _ _
  have hcw : (src.w : ℚ) * ((tw : ℚ) / src.w) = tw := by field_simp
  have hch : (src.h : ℚ) * ((th : ℚ) / src.h) = th := by field_simp
  have hws : (tw : ℚ) ≤ (src.w : ℚ) * scale_to_cover_canvas tw th src.w src.h := by
    calc (tw : ℚ) = (src.w : ℚ) * ((tw : ℚ) / src.w) := hcw.symm
    _ ≤ _ := mul_le_mul_of_nonneg_left hsx hiwQ.le
  have hhs : (th : ℚ) ≤ (src.h : ℚ) * scale_to_cover_canvas tw th src.w src.h := by
    calc (th : ℚ) = (src.h : ℚ) * ((th : ℚ) / src.h) := hch.symm
    _ ≤ _ := mul_le_mul_of_nonneg_left hsy hihQ.le
  have htwQ : (0 : ℚ) ≤ (tw : ℚ) := by exact_mod_cast htw.le
  have hthQ : (0 : ℚ) ≤ (th : ℚ) := by exact_mod_cast hth.le
  have hrw : tw ≤ pyInt ((src.w : ℚ) * scale_to_cover_canvas tw th src.w src.h) :=
    int_le_pyInt hws (le_trans htwQ hws)
  have hrh : th ≤ pyInt ((src.h : ℚ) * scale_to_cover_canvas tw th src.w src.h) :=
    int_le_pyInt hhs (le_trans hthQ hhs)
  rw [noHeroBranch_eq, noHeroBranch_eq]
  exact cover_paste_px resample src tw th _ _ bg1 bg2 x y hrw hrh hx0 hx hy0 hy

theorem heroBranch_eq (resample : Resample) (src : Img)
    (tw th x1 y1 x2 y2 hax hay haw hah : ℤ) (p : ℚ) (bg : Pixel) :
    heroBranch resample src tw th x1 y1 x2 y2 hax hay haw hah p bg =
      Img.paste (Img.new tw th bg)
        ((Img.resize resample src
            (heroGeom tw th src.w src.h x1 y1 x2 y2 hax hay haw hah p).scaled_iw
            (heroGeom tw th src.w src.h x1 y1 x2 y2 hax hay haw hah p).scaled_ih).crop
          (pyInt (heroGeom tw th src.w src.h x1 y1 x2 y2 hax hay haw hah p).crop_x)
          (pyInt (heroGeom tw th src.w src.h x1 y1 x2 y2 hax hay haw hah p).crop_y)
          (pyInt ((heroGeom tw th src.w src.h x1 y1 x2 y2 hax hay haw hah p).crop_x + tw))
          (pyInt ((heroGeom tw th src.w src.h x1 y1 x2 y2 hax hay haw hah p).crop_y + th)))
        0 0 := rfl

theorem hero_paste_px (resample : Resample) (src : Img) (tw th : ℤ)
    (G : HeroGeom) (bg1 bg2 : Pixel) (x y : ℤ)
    (hcx : 0 ≤ G.crop_x) (hcy : 0 ≤ G.crop_y)
    (hx0 : 0 ≤ x) (hx : x < tw) (hy0 : 0 ≤ y) (hy : y < th) :
    (Img.paste (Img.new tw th bg1) ((Img.resize resample src G.scaled_iw
        G.scaled_ih).crop (pyInt G.crop_x) (pyInt G.crop_y)
        (pyInt (G.crop_x + tw)) (pyInt (G.crop_y + th))) 0 0).px x y =
    (Img.paste (Img.new tw th bg2) ((Img.resize resample src G.scaled_iw
        G.scaled_ih).crop (pyInt G.crop_x) (pyInt G.crop_y)
        (pyInt (G.crop_x + tw)) (pyInt (G.crop_y + th))) 0 0).px x y := by
  have htw : (0 : ℤ) < tw := lt_of_le_of_lt hx0 hx
  have hth : (0 : ℤ) < th := lt_of_le_of_lt hy0 hy
  have hw : pyInt (G.crop_x + tw) = pyInt G.crop_x + tw := by
    rw [pyInt_of_nonneg hcx,
      pyInt_of_nonneg (add_nonneg hcx (by exact_mod_cast htw.le))]
    exact Int.floor_add_int G.crop_x tw
  have hh : pyInt (G.crop_y + th) = pyInt G.crop_y + th := by
    rw [pyInt_of_nonneg hcy,
      pyInt_of_nonneg (add_nonneg hcy (by exact_mod_cast hth.le))]
    exact Int.floor_add_int G.crop_y th
  have hxw : x < ((Img.resize resample src G.scaled_iw G.scaled_ih).crop
      (pyInt G.crop_x) (pyInt G.crop_y)
      (pyInt (G.crop_x + tw)) (pyInt (G.crop_y + th))).w := by
    show x < pyInt (G.crop_x + tw) - pyInt G.crop_x
    omega
  have hyh : y < ((Img.resize resample src G.scaled_iw G.scaled_ih).crop
      (pyInt G.crop_x) (pyInt G.crop_y)
      (pyInt (G.crop_x + tw)) (pyInt (G.crop_y + th))).h := by
    show y < pyInt (G.crop_y + th) - pyInt G.crop_y
    omega
  rw [Img.paste_origin_px _ _ _ _ hx0 hxw hy0 hyh,
    Img.paste_origin_px _ _ _ _ hx0 hxw hy0 hyh]

/-- C3: full-cover guarantee.  For a source with non-zero area, every pixel
of the target-sized canvas is overwritten by the pasted crop, so the output
pixel at any in-range coordinate does not depend on the background fill
color — the background is never visible; it can show only when the source
has zero area. -/
theorem create_base_canvas_full_cover (resample : Resample) (src : Img)
    (tw th : ℤ) (hero_bbox : Option (ℤ × ℤ × ℤ × ℤ)) (hax hay haw hah : ℤ)
    (p : ℚ) (bg1 bg2 : Pixel) (x y : ℤ)
    (hiw : 0 < src.w) (hih : 0 < src.h)
    (hx0 : 0 ≤ x) (hx : x < tw) (hy0 : 0 ≤ y) (hy : y < th) :
    (create_base_canvas_with_hero resample src tw th hero_bbox hax hay haw hah p bg1).px x y =
    (create_base_canvas_with_hero resample src tw th hero_bbox hax hay haw hah p bg2).px x y := by
  have hsz : ¬(src.w = 0 ∨ src.h = 0) := by omega
  have hno : ∀ p' : ℚ,
      (create_base_canvas_with_hero resample src tw th none hax hay haw hah p' bg1).px x y =
      (create_base_canvas_with_hero resample src tw th none hax hay haw hah p' bg2).px x y := by
    intro p'
    rw [create_base_canvas_none, create_base_canvas_none, if_neg hsz, if_neg hsz]
    exact noHeroBranch_px_eq resample src tw th bg1 bg2 x y hiw hih hx0 hx hy0 hy
  cases hero_bbox with
  | none => exact hno p
  | some b =>
    obtain ⟨x1, y1, x2, y2⟩ := b
    rw [create_base_canvas_some, create_base_canvas_some, if_neg hsz, if_neg hsz]
    by_cases harea : haw ≤ 0 ∨ hah ≤ 0
    · rw [if_pos harea, if_pos harea]
      exact noHeroBranch_px_eq resample src tw th bg1 bg2 x y hiw hih hx0 hx hy0 hy
    · rw [if_neg harea, if_neg harea]
      by_cases hdeg : x2 - x1 ≤ 0 ∨ y2 - y1 ≤ 0
      · rw [if_pos hdeg, if_pos hdeg]
        exact hno (7/10)
      · rw [if_neg hdeg, if_neg hdeg, heroBranch_eq, heroBranch_eq]
        exact hero_paste_px resample src tw th _ bg1 bg2 x y
          (heroGeom_crop_clamped tw th src.w src.h x1 y1 x2 y2 hax hay haw hah p).1
          (heroGeom_crop_clamped tw th src.w src.h x1 y1 x2 y2 hax hay haw hah p).2.2.1
          hx0 hx hy0 hy

/-- C3 witness: a concrete source, target, hero bbox and two background
colors; the pixel at the origin agrees. -/
theorem create_base_canvas_full_cover_witness :
    ((0 : ℤ) < 5 ∧ (0 : ℤ) < 4 ∧ (0 : ℤ) ≤ 0 ∧ (0 : ℤ) < 2 ∧ (0 : ℤ) < 3) ∧
    (create_base_canvas_with_hero (fun _ _ _ _ _ => (1, 1, 1, 255))
      ⟨5, 4, fun _ _ => (9, 9, 9, 255), "RGBA"⟩ 2 3 (some (0, 0, 4, 3))
      0 0 2 3 (7/10) (255, 255, 255, 0)).px 0 0 =
    (create_base_canvas_with_hero (fun _ _ _ _ _ => (1, 1, 1, 255))
      ⟨5, 4, fun _ _ => (9, 9, 9, 255), "RGBA"⟩ 2 3 (some (0, 0, 4, 3))
      0 0 2 3 (7/10) (0, 0, 0, 255)).px 0 0 :=
  ⟨⟨by norm_num, by norm_num, le_rfl, by norm_num, by norm_num⟩,
   create_base_canvas_full_cover _ _ 2 3 _ 0 0 2 3 _ _ _ 0 0
     (by norm_num) (by norm_num) le_rfl (by norm_num) le_rfl (by norm_num)⟩

/-- Comparison `diff < best_diff` where `none` models the initial
`float('inf')` of `main.py:232`. -/
def diffLt (d : ℤ) : Option ℤ → Bool
  | none => true
  | some b => decide (d < b)

/-- `main.py:236-266` — the binary-search loop of `find_font_size_for_height`.
The font metric (lines 242-252: load the font at size `mid`, measure the
sample text, with fallbacks) is abstracted as a function `f` from candidate
size to measured height.  `best_size`/`best_diff` track the candidate with
minimum absolute difference ever seen; an exact hit returns immediately. -/
def fssLoop (f : ℕ → ℤ) (t : ℤ) (low high best_size : ℕ)
    (best_diff : Option ℤ) : ℕ :=
  if hlh : low ≤ high then
    if hm : (low + high) / 2 = 0 then
      fssLoop f t 1 high best_size best_diff
    else
      if f ((low + high) / 2) < t then
        fssLoop f t ((low + high) / 2 + 1) high
          (if diffLt |f ((low + high) / 2) - t| best_diff then (low + high) / 2
           else best_size)
          (if diffLt |f ((low + high) / 2) - t| best_diff then
            some |f ((low + high) / 2) - t| else best_diff)
      else if t < f ((low + high) / 2) then
        fssLoop f t low ((low + high) / 2 - 1)
          (if diffLt |f ((low + high) / 2) - t| best_diff then (low + high) / 2
           else best_size)
          (if diffLt |f ((low + high) / 2) - t| best_diff then
            some |f ((low + high) / 2) - t| else best_diff)
      else (low + high) / 2
  else best_size
termination_by high + 1 - low
decreasing_by all_goals omega

/-- The candidate sizes probed by `fssLoop`, in probe order; the list stops
at an exact hit, mirroring the early return of `main.py:264`. -/
def fssProbes (f : ℕ → ℤ) (t : ℤ) (low high : ℕ) : List ℕ :=
  if hlh : low ≤ high then
    if hm : (low + high) / 2 = 0 then fssProbes f t 1 high
    else if f ((low + high) / 2) < t then
      (low + high) / 2 :: fssProbes f t ((low + high) / 2 + 1) high
    else if t < f ((low + high) / 2) then
      (low + high) / 2 :: fssProbes f t low ((low + high) / 2 - 1)
    else [(low + high) / 2]
  else []
termination_by high + 1 - low
decreasing_by all_goals omega

/-- `main.py:229-266` — `find_font_size_for_height` with its default bounds
`min_size = 10`, `max_size = 128`: clamp the target to at least 1, then run
the binary-search loop with initial best `(min_size, inf)`. -/
def find_font_size_for_height (target_height : ℤ) (f : ℕ → ℤ) : ℕ :=
  fssLoop f (max 1 target_height) 10 128 10 none

theorem fssLoop_invariant (f : ℕ → ℤ) (t : ℤ) :
    ∀ (n low high bs : ℕ) (bd : Option ℤ), high + 1 - low ≤ n →
      (bd = none ∨ bd = some |f bs - t|) →
      (∀ d : ℤ, bd = some d → |f (fssLoop f t low high bs bd) - t| ≤ d) ∧
      (∀ m ∈ fssProbes f t low high,
        |f (fssLoop f t low high bs bd) - t| ≤ |f m - t|) ∧
      (fssLoop f t low high bs bd = bs ∨
        fssLoop f t low high bs bd ∈ fssProbes f t low high) := by
  intro n
  induction n with
  | zero =>
    intro low high bs bd hn hbd
    have hlh : ¬ low ≤ high := by omega
    rw [fssLoop, fssProbes]
    simp only [dif_neg hlh]
    refine ⟨?_, ?_, Or.inl trivial⟩
    · intro d hd
      rcases hbd with h | h
      · rw [h] at hd; exact absurd hd (by simp)
      · rw [h] at hd
        injection hd with hd'
        rw [← hd']
    · intro m hm
      exact absurd hm (List.not_mem_nil m)
  | succ n ih =>
    intro low high bs bd hn hbd
    by_cases hlh : low ≤ high
    case neg =>
      rw [fssLoop, fssProbes]
      simp only [dif_neg hlh]
      refine ⟨?_, ?_, Or.inl trivial⟩
      · intro d hd
        rcases hbd with h | h
        · rw [h] at hd; exact absurd hd (by simp)
        · rw [h] at hd
          injection hd with hd'
          rw [← hd']
      · intro m hm
        exact absurd hm (List.not_mem_nil m)
    case pos =>
      rw [fssLoop, fssProbes]
      simp only [dif_pos hlh]
      by_cases hm : (low + high) / 2 = 0
      · simp only [dif_pos hm]
        exact ih 1 high bs bd (by omega) hbd
      · simp only [dif_neg hm]
        by_cases hlt : f ((low + high) / 2) < t
        · simp only [if_pos hlt]
          by_cases hdl : diffLt |f ((low + high) / 2) - t| bd = true
          · simp only [if_pos hdl]
            obtain ⟨s1, s2, s3⟩ := ih ((low + high) / 2 + 1) high ((low + high) / 2)
              (some |f ((low + high) / 2) - t|) (by omega) (Or.inr rfl)
            refine ⟨?_, ?_, ?_⟩
            · intro d hd
              have hR := s1 _ rfl
              rcases hbd with h | h
              · rw [h] at hd; exact absurd hd (by simp)
              · rw [h] at hd
                injection hd with hd'
                rw [h] at hdl
                simp only [diffLt, decide_eq_true_eq] at hdl
                omega
            · intro m hmem
              rcases List.mem_cons.mp hmem with h | h
              · subst h; exact s1 _ rfl
              · exact s2 m h
            · rcases s3 with h | h
              · rw [h]; exact Or.inr (List.mem_cons_self _ _)
              · exact Or.inr (List.mem_cons_of_mem _ h)
          · simp only [if_neg hdl]
            obtain ⟨s1, s2, s3⟩ := ih ((low + high) / 2 + 1) high bs bd (by omega) hbd
            rcases hbd with hb | hb
            · rw [hb] at hdl
              simp [diffLt] at hdl
            · refine ⟨s1, ?_, ?_⟩
              · intro m hmem
                rcases List.mem_cons.mp hmem with h | h
                · subst h
                  have hRb := s1 _ hb
                  rw [hb] at hdl
                  simp only [diffLt, decide_eq_true_eq] at hdl
                  omega
                · exact s2 m h
              · rcases s3 with h | h
                · exact Or.inl h
                · exact Or.inr (List.mem_cons_of_mem _ h)
        · by_cases hgt : t < f ((low + high) / 2)
          · simp only [if_neg hlt, if_pos hgt]
            by_cases hdl : diffLt |f ((low + high) / 2) - t| bd = true
            · simp only [if_pos hdl]
              obtain ⟨s1, s2, s3⟩ := ih low ((low + high) / 2 - 1) ((low + high) / 2)
                (some |f ((low + high) / 2) - t|) (by omega) (Or.inr rfl)
              refine ⟨?_, ?_, ?_⟩
              · intro d hd
                have hR := s1 _ rfl
                rcases hbd with h | h
                · rw [h] at hd; exact absurd hd (by simp)
                · rw [h] at hd
                  injection hd with hd'
                  rw [h] at hdl
                  simp only [diffLt, decide_eq_true_eq] at hdl
                  omega
              · intro m hmem
                rcases List.mem_cons.mp hmem with h | h
                · subst h; exact s1 _ rfl
                · exact s2 m h
              · rcases s3 with h | h
                · rw [h]; exact Or.inr (List.mem_cons_self _ _)
                · exact Or.inr (List.mem_cons_of_mem _ h)
            · simp only [if_neg hdl]
              obtain ⟨s1, s2, s3⟩ := ih low ((low + high) / 2 - 1) bs bd (by omega) hbd
              rcases hbd with hb | hb
              · rw [hb] at hdl
                simp [diffLt] at hdl
              · refine ⟨s1, ?_, ?_⟩
                · intro m hmem
                  rcases List.mem_cons.mp hmem with h | h
                  · subst h
                    have hRb := s1 _ hb
                    rw [hb] at hdl
                    simp only [diffLt, decide_eq_true_eq] at hdl
                    omega
                  · exact s2 m h
                · rcases s3 with h | h
                  · exact Or.inl h
                  · exact Or.inr (List.mem_cons_of_mem _ h)
          · simp only [if_neg hlt, if_neg hgt]
            have heq : f ((low + high) / 2) = t := by omega
            have hz : |f ((low + high) / 2) - t| = 0 := by rw [heq]; simp
            refine ⟨?_, ?_, Or.inr (List.mem_singleton_self _)⟩
            · intro d hd
              rcases hbd with h | h
              · rw [h] at hd; exact absurd hd (by simp)
              · rw [h] at hd
                injection hd with hd'
                rw [hz, ← hd']
                exact abs_nonneg _
            · intro m hmem
              rw [List.mem_singleton] at hmem
              subst hmem
              exact le_refl _

theorem fssLoop_bounds (f : ℕ → ℤ) (t : ℤ) :
    ∀ (n low high bs : ℕ) (bd : Option ℤ), high + 1 - low ≤ n →
      10 ≤ low → high ≤ 128 → 10 ≤ bs → bs ≤ 128 →
      10 ≤ fssLoop f t low high bs bd ∧ fssLoop f t low high bs bd ≤ 128 := by
  intro n
  induction n with
  | zero =>
    intro low high bs bd hn h1 h2 h3 h4
    have hlh : ¬ low ≤ high := by omega
    rw [fssLoop]
    simp only [dif_neg hlh]
    exact ⟨h3, h4⟩
  | succ n ih =>
    intro low high bs bd hn h1 h2 h3 h4
    by_cases hlh : low ≤ high
    case neg =>
      rw [fssLoop]
      simp only [dif_neg hlh]
      exact ⟨h3, h4⟩
    case pos =>
      rw [fssLoop]
      simp only [dif_pos hlh]
      have hm : ¬ (low + high) / 2 = 0 := by omega
      simp only [dif_neg hm]
      by_cases hlt : f ((low + high) / 2) < t
      · simp only [if_pos hlt]
        exact ih ((low + high) / 2 + 1) high _ _ (by omega) (by omega) h2
          (by split <;> omega) (by split <;> omega)
      · by_cases hgt : t < f ((low + high) / 2)
        · simp only [if_neg hlt, if_pos hgt]
          exact ih low ((low + high) / 2 - 1) _ _ (by omega) h1 (by omega)
            (by split <;> omega) (by split <;> omega)
        · simp only [if_neg hlt, if_neg hgt]
          omega

/-- C5: for target height at least 1 and any font metric `f`, the search
returns an integer size in `[10, 128]` that is one of the probed candidates
and whose measured height has minimal absolute difference to the target
among all candidates probed (the minimum ever seen, not merely the last
bracket); the probe list stops at an exact hit, which is returned
immediately. -/
theorem find_font_size_for_height_spec (f : ℕ → ℤ) (t : ℤ) (ht : 1 ≤ t) :
    10 ≤ find_font_size_for_height t f ∧
    find_font_size_for_height t f ≤ 128 ∧
    find_font_size_for_height t f ∈ fssProbes f t 10 128 ∧
    ∀ m ∈ fssProbes f t 10 128,
      |f (find_font_size_for_height t f) - t| ≤ |f m - t| := by
  have hmt : max 1 t = t := max_eq_right ht
  unfold find_font_size_for_height
  rw [hmt]
  have hb := fssLoop_bounds f t 119 10 128 10 none (by norm_num) (by norm_num)
    (by norm_num) (by norm_num) (by norm_num)
  have key : fssLoop f t 10 128 10 none ∈ fssProbes f t 10 128 ∧
      ∀ m ∈ fssProbes f t 10 128,
        |f (fssLoop f t 10 128 10 none) - t| ≤ |f m - t| := by
    rw [fssLoop, fssProbes]
    have h1 : (10 : ℕ) ≤ 128 := by norm_num
    have h2 : ¬ ((10 + 128 : ℕ) / 2 = 0) := by norm_num
    simp only [dif_pos h1, dif_neg h2]
    simp only [show ((10 + 128 : ℕ) / 2) = 69 from by norm_num]
    simp only [diffLt, if_true]
    by_cases hlt : f 69 < t
    · simp only [if_pos hlt]
      obtain ⟨s1, s2, s3⟩ := fssLoop_invariant f t 59 70 128 69
        (some |f 69 - t|) (by norm_num) (Or.inr rfl)
      constructor
      · rcases s3 with h | h
        · rw [h]; exact List.mem_cons_self _ _
        · exact List.mem_cons_of_mem _ h
      · intro m hm
        rcases List.mem_cons.mp hm with h | h
        · subst h; exact s1 _ rfl
        · exact s2 m h
    · by_cases hgt : t < f 69
      · simp only [if_neg hlt, if_pos hgt]
        obtain ⟨s1, s2, s3⟩ := fssLoop_invariant f t 59 10 68 69
          (some |f 69 - t|) (by norm_num) (Or.inr rfl)
        constructor
        · rcases s3 with h | h
          · rw [h]; exact List.mem_cons_self _ _
          · exact List.mem_cons_of_mem _ h
        · intro m hm
          rcases List.mem_cons.mp hm with h | h
          · subst h; exact s1 _ rfl
          · exact s2 m h
      · simp only [if_neg hlt, if_neg hgt]
        refine ⟨List.mem_singleton_self _, ?_⟩
        intro m hm
        rw [List.mem_singleton] at hm
        subst hm
        exact le_refl _
  exact ⟨hb.1, hb.2, key.1, key.2⟩

/-- C5 witness: the identity metric with target 50 probes
`[69, 39, 54, 46, 50]`, hits 50 exactly, and the returned size's difference
is minimal (in particular no larger than the first probe's). -/
theorem find_font_size_for_height_spec_witness :
    (1 : ℤ) ≤ 50 ∧ 69 ∈ fssProbes (fun n => (n : ℤ)) 50 10 128 ∧
    |(fun n => (n : ℤ)) (find_font_size_for_height 50 (fun n => (n : ℤ))) - 50| ≤
      |(fun n => (n : ℤ)) 69 - 50| :=
  ⟨by norm_num, by simp [fssProbes],
   (find_font_size_for_height_spec (fun n => (n : ℤ)) 50 (by norm_num)).2.2.2 69
     (by simp [fssProbes])⟩

/-- Python whitespace as recognized by `str.split()` with no separator
argument. -/
def isPySpace (c : Char) : Bool :=
  c == ' ' || c == '\t' || c == '\n' || c == '\r' || c == '\x0b' || c == '\x0c'

/-- Accumulator worker for `splitWs`. -/
def splitWsAux : List Char → List Char → List (List Char)
  | [], acc => if acc = [] then [] else [acc.reverse]
  | c :: cs, acc =>
    if isPySpace c then
      if acc = [] then splitWsAux cs [] else acc.reverse :: splitWsAux cs []
    else splitWsAux cs (c :: acc)

/-- `content_item.split()` (`main.py:643`): split on runs of whitespace,
dropping empty chunks. -/
def splitWs (s : List Char) : List (List Char) := splitWsAux s []

/-- Splitting on every single space character, keeping empty chunks — the
"split each produced line on single spaces" operation of the round-trip
property (Python `line.split(" ")`). -/
def splitSp : List Char → List (List Char)
  | [] => [[]]
  | c :: cs =>
    if c = ' ' then [] :: splitSp cs
    else
      match splitSp cs with
      | [] => [[c]]
      | w :: ws => (c :: w) :: ws

theorem splitSp_ne_nil (l : List Char) : splitSp l ≠ [] := by
  induction l with
  | nil => simp [splitSp]
  | cons c cs ih =>
    rw [splitSp]
    split
    · simp
    · split
      · simp
      · simp

theorem splitSp_cons_space (cs : List Char) :
    splitSp (' ' :: cs) = [] :: splitSp cs := by
  rw [splitSp, if_pos rfl]

theorem splitSp_cons_nonspace (c : Char) (cs : List Char) (hc : ¬ c = ' ') :
    splitSp (c :: cs) =
      match splitSp cs with
      | [] => [[c]]
      | w :: ws => (c :: w) :: ws := by
  rw [splitSp, if_neg hc]

theorem splitSp_append_space (x y : List Char) :
    splitSp (x ++ ' ' :: y) = splitSp x ++ splitSp y := by
  induction x with
  | nil =>
    rw [List.nil_append, splitSp_cons_space]
    rfl
  | cons c cs ih =>
    by_cases hc : c = ' '
    · subst hc
      rw [List.cons_append, splitSp_cons_space, splitSp_cons_space, ih]
      rfl
    · rw [List.cons_append, splitSp_cons_nonspace c _ hc,
        splitSp_cons_nonspace c _ hc, ih]
      obtain ⟨w, ws, hws⟩ : ∃ w ws, splitSp cs = w :: ws := by
        cases h : splitSp cs with
        | nil => exact absurd h (splitSp_ne_nil cs)
        | cons w ws => exact ⟨w, ws, rfl⟩
      rw [hws]
      simp

theorem splitSp_no_space (w : List Char) (h : ∀ c ∈ w, ¬ c = ' ') :
    splitSp w = [w] := by
  induction w with
  | nil => simp [splitSp]
  | cons c cs ih =>
    rw [splitSp, if_neg (h c (List.mem_cons_self c cs)),
      ih (fun d hd => h d (List.mem_cons_of_mem c hd))]

theorem splitWsAux_words (s : List Char) : ∀ acc : List Char,
    (∀ c ∈ acc, isPySpace c = false) →
    ∀ w ∈ splitWsAux s acc, w ≠ [] ∧ ∀ c ∈ w, isPySpace c = false := by
  induction s with
  | nil =>
    intro acc hacc w hw
    rw [splitWsAux] at hw
    by_cases hac : acc = []
    · rw [if_pos hac] at hw
      exact absurd hw (List.not_mem_nil w)
    · rw [if_neg hac] at hw
      rw [List.mem_singleton] at hw
      subst hw
      refine ⟨by simpa using hac, ?_⟩
      intro c hc
      exact hacc c (List.mem_reverse.mp hc)
  | cons c cs ih =>
    intro acc hacc w hw
    rw [splitWsAux] at hw
    by_cases hsp : isPySpace c
    · rw [if_pos hsp] at hw
      by_cases hac : acc = []
      · rw [if_pos hac] at hw
        exact ih [] (by simp) w hw
      · rw [if_neg hac] at hw
        rcases List.mem_cons.mp hw with h | h
        · subst h
          refine ⟨by simpa using hac, ?_⟩
          intro d hd
          exact hacc d (List.mem_reverse.mp hd)
        · exact ih [] (by simp) w h
    · rw [if_neg hsp] at hw
      refine ih (c :: acc) ?_ w hw
      intro d hd
      rcases List.mem_cons.mp hd with h | h
      · subst h
        simpa using hsp
      · exact hacc d h

theorem splitWs_words (s : List Char) :
    ∀ w ∈ splitWs s, w ≠ [] ∧ ∀ c ∈ w, isPySpace c = false :=
  splitWsAux_words s [] (by simp)

/-- `main.py:644-650` — one step of the greedy word wrap; the state is the
pair `(ad_copy_lines_final, curr_l)` and `meas` abstracts the measured line
width `getbbox(test_l)[2] - getbbox(test_l)[0]` (with its fallback). -/
def wrapStep (meas : List Char → ℤ) (maxW : ℤ)
    (st : List (List Char) × List Char) (word : List Char) :
    List (List Char) × List Char :=
  let test_l := if st.2 = [] then word else st.2 ++ ' ' :: word
  if meas test_l ≤ maxW then (st.1, test_l)
  else if st.2 = [] then (st.1, word)
  else (st.1 ++ [st.2], word)

/-- `main.py:642-652` — the greedy word wrap of the ad copy: split the text
into words, fold the accumulation step, flush the trailing line, then the
hard-truncation fallback `content_item[:int(max_ac_w/(ac_font_sz*0.6))]`
when no lines were produced for non-empty text. -/
def wrapLines (meas : List Char → ℤ) (maxW fontSz : ℤ)
    (text : List Char) : List (List Char) :=
  let st := (splitWs text).foldl (wrapStep meas maxW) ([], [])
  let ls := if st.2 = [] then st.1 else st.1 ++ [st.2]
  if ls = [] ∧ text ≠ [] then
    [pyTake (pyInt ((maxW : ℚ) / ((fontSz : ℚ) * (6/10)))) text]
  else ls

/-- The word sequence represented by a wrap state: words of the flushed
lines followed by words of the pending line. -/
def lineWords (st : List (List Char) × List Char) : List (List Char) :=
  st.1.flatMap splitSp ++ (if st.2 = [] then [] else splitSp st.2)

theorem lineWords_wrapStep (meas : List Char → ℤ) (maxW : ℤ)
    (st : List (List Char) × List Char) (word : List Char)
    (hw : word ≠ []) (hsp : ∀ c ∈ word, ¬ c = ' ') :
    lineWords (wrapStep meas maxW st word) = lineWords st ++ [word] := by
  obtain ⟨lines, curr⟩ := st
  by_cases hc : curr = []
  · subst hc
    by_cases hfit : meas word ≤ maxW
    · simp [wrapStep, lineWords, hfit, hw, splitSp_no_space word hsp]
    · simp [wrapStep, lineWords, hfit, hw, splitSp_no_space word hsp]
  · by_cases hfit : meas (curr ++ ' ' :: word) ≤ maxW
    · simp [wrapStep, lineWords, hc, hfit, splitSp_append_space,
        splitSp_no_space word hsp]
    · simp [wrapStep, lineWords, hc, hfit, hw,
        splitSp_no_space word hsp, List.flatMap_append, List.append_assoc]

theorem lineWords_foldl (meas : List Char → ℤ) (maxW : ℤ) :
    ∀ (ws : List (List Char)) (st : List (List Char) × List Char),
      (∀ w ∈ ws, w ≠ [] ∧ ∀ c ∈ w, ¬ c = ' ') →
      lineWords (ws.foldl (wrapStep meas maxW) st) = lineWords st ++ ws := by
  intro ws
  induction ws with
  | nil => intro st _; simp
  | cons w ws ih =>
    intro st hws
    rw [List.foldl_cons,
      ih _ (fun x hx => hws x (List.mem_cons_of_mem _ hx)),
      lineWords_wrapStep meas maxW st w (hws w (List.mem_cons_self _ _)).1
        (hws w (List.mem_cons_self _ _)).2]
    simp

/-- C6: text wrap round-trip.  Whenever the hard-truncation fallback does
not fire (equivalently: the text is empty or has at least one
whitespace-separated word), splitting each produced line on single spaces
and concatenating across lines, in order, yields exactly the
whitespace-split word sequence of the input text — no word dropped,
duplicated or reordered. -/
theorem wrapLines_roundtrip (meas : List Char → ℤ) (maxW fontSz : ℤ)
    (text : List Char) (h : splitWs text ≠ [] ∨ text = []) :
    (wrapLines meas maxW fontSz text).flatMap splitSp = splitWs text := by
  have hwords := splitWs_words text
  have hws' : ∀ w ∈ splitWs text, w ≠ [] ∧ ∀ c ∈ w, ¬ c = ' ' := by
    intro w hw
    refine ⟨(hwords w hw).1, ?_⟩
    intro c hc hceq
    have := (hwords w hw).2 c hc
    subst hceq
    simp [isPySpace] at this
  have hfold := lineWords_foldl meas maxW (splitWs text) ([], []) hws'
  have hbase : lineWords (([], []) : List (List Char) × List Char) = [] := by
    simp [lineWords]
  rw [hbase, List.nil_append] at hfold
  rw [wrapLines]
  by_cases hc : ((splitWs text).foldl (wrapStep meas maxW) ([], [])).2 = []
  · have hflat := hfold
    rw [lineWords, if_pos hc, List.append_nil] at hflat
    simp only [if_pos hc]
    rcases h with h | h
    · have hne : ((splitWs text).foldl (wrapStep meas maxW) ([], [])).1 ≠ [] := by
        intro h0
        rw [h0] at hflat
        exact h hflat.symm
      rw [if_neg (by simp [hne])]
      exact hflat
    · subst h
      simp only [ne_eq, not_true_eq_false, and_false, if_false]
      exact hflat
  · have hflat := hfold
    rw [lineWords, if_neg hc] at hflat
    simp only [if_neg hc]
    rw [if_neg (by simp)]
    rw [List.flatMap_append]
    simpa using hflat

/-- C6 witness: the text "ab cd ef" with a width bound that forces a wrap;
the wrapped lines split back to the original words. -/
theorem wrapLines_roundtrip_witness :
    (splitWs (String.toList "ab cd ef") ≠ [] ∨ String.toList "ab cd ef" = []) ∧
    (wrapLines (fun l => (l.length : ℤ)) 5 10
        (String.toList "ab cd ef")).flatMap splitSp =
      splitWs (String.toList "ab cd ef") :=
  ⟨Or.inl (by decide),
   wrapLines_roundtrip (fun l => (l.length : ℤ)) 5 10
     (String.toList "ab cd ef") (Or.inl (by decide))⟩

/-- `main.py:356-364` — safe-area derivation per format: a literal override
`map(int, (127.34, 254.56, 1182.1, 2072.43))` for the exact (1440, 2560)
format, else `int(0.07 * dim)` margins on each side. -/
def safe_rect (tw th : ℤ) : ℤ × ℤ × ℤ × ℤ :=
  if tw = 1440 ∧ th = 2560 then
    (pyInt ((12734 : ℚ) / 100), pyInt ((25456 : ℚ) / 100),
     pyInt ((11821 : ℚ) / 10), pyInt ((207243 : ℚ) / 100))
  else
    (pyInt ((tw : ℚ) * (7 / 100)), pyInt ((th : ℚ) * (7 / 100)),
     tw - 2 * pyInt ((tw : ℚ) * (7 / 100)),
     th - 2 * pyInt ((th : ℚ) * (7 / 100)))

/-- C9: the (1440, 2560) format gets the literal override truncated to
(127, 254, 1182, 2072); every other format gets the 7%-margin formula
`x = int(0.07 * w)`, `y = int(0.07 * h)`, `(w - 2x, h - 2y)`. -/
theorem safe_rect_spec :
    safe_rect 1440 2560 = (127, 254, 1182, 2072) ∧
    ∀ tw th : ℤ, ¬ (tw = 1440 ∧ th = 2560) →
      safe_rect tw th =
        (pyInt ((7 : ℚ) / 100 * tw), pyInt ((7 : ℚ) / 100 * th),
         tw - 2 * pyInt ((7 : ℚ) / 100 * tw),
         th - 2 * pyInt ((7 : ℚ) / 100 * th)) := by
  constructor
  · rw [safe_rect, if_pos ⟨rfl, rfl⟩]
    norm_num [pyInt]
  · intro tw th hne
    rw [safe_rect, if_neg hne, mul_comm ((7 : ℚ) / 100) (tw : ℚ),
      mul_comm ((7 : ℚ) / 100) (th : ℚ)]

/-- C9 witness: a non-override format follows the margin formula. -/
theorem safe_rect_spec_witness :
    ¬ ((100 : ℤ) = 1440 ∧ (200 : ℤ) = 2560) ∧
    safe_rect 100 200 =
      (pyInt ((7 : ℚ) / 100 * 100), pyInt ((7 : ℚ) / 100 * 200),
       100 - 2 * pyInt ((7 : ℚ) / 100 * 100),
       200 - 2 * pyInt ((7 : ℚ) / 100 * 200)) :=
  ⟨by decide, safe_rect_spec.2 100 200 (by decide)⟩

/-- `main.py:370` — the logo position key: per-orientation lookup with
default "top_center"; the source applies no alias resolution here. -/
def logo_pos_key (posByOrientation : String → Option String)
    (orientation : String) : String :=
  (posByOrientation orientation).getD "top_center"

/-- `main.py:371-372` — the copy position key: per-orientation lookup with
default "bottom_center", then the legacy alias "let_ai_choose" resolves to
"bottom_center". -/
def copy_pos_key (posByOrientation : String → Option String)
    (orientation : String) : String :=
  let k := (posByOrientation orientation).getD "bottom_center"
  if k = "let_ai_choose" then "bottom_center" else k

/-- `main.py:373-374` — the CTA position key, resolved like the copy key. -/
def cta_pos_key (posByOrientation : String → Option String)
    (orientation : String) : String :=
  let k := (posByOrientation orientation).getD "bottom_center"
  if k = "let_ai_choose" then "bottom_center" else k

/-- C8 counterexample: a logo whose per-orientation key is the legacy alias
"let_ai_choose" keeps that key verbatim — it is not resolved to
"bottom_center" as the claim states, because `main.py:370` applies no alias
remapping to the logo key. -/
theorem logo_pos_key_alias_counterexample :
    logo_pos_key (fun _ => some "let_ai_choose") "portrait" = "let_ai_choose" ∧
    "let_ai_choose" ≠ "bottom_center" :=
  ⟨rfl, by decide⟩

/-- C8 amended: the legacy alias "let_ai_choose" resolves to "bottom_center"
for the copy and CTA position keys only; the logo key is the raw lookup with
default "top_center", used without alias resolution. -/
theorem pos_key_alias_resolution (m : String → Option String) (o : String) :
    ((m o).getD "bottom_center" = "let_ai_choose" →
      copy_pos_key m o = "bottom_center" ∧ cta_pos_key m o = "bottom_center") ∧
    logo_pos_key m o = (m o).getD "top_center" := by
  refine ⟨fun hk => ⟨?_, ?_⟩, rfl⟩
  · unfold copy_pos_key
    simp only [hk, if_pos]
  · unfold cta_pos_key
    simp only [hk, if_pos]

/-- C8 amended witness: a concrete lookup returning the alias. -/
theorem pos_key_alias_resolution_witness :
    ((some "let_ai_choose").getD "bottom_center" = "let_ai_choose") ∧
    copy_pos_key (fun _ => some "let_ai_choose") "square" = "bottom_center" ∧
    cta_pos_key (fun _ => some "let_ai_choose") "square" = "bottom_center" :=
  ⟨rfl,
   ((pos_key_alias_resolution (fun _ => some "let_ai_choose") "square").1 rfl).1,
   ((pos_key_alias_resolution (fun _ => some "let_ai_choose") "square").1 rfl).2⟩

/-- `main.py:557-560` — the overlay elements enabled for a format, in
construction order logo, copy, cta; a position group is such a sublist. -/
def elementNames (hasLogo hasCopy hasCta : Bool) : List String :=
  (if hasLogo then ["logo"] else []) ++ (if hasCopy then ["copy"] else []) ++
    (if hasCta then ["cta"] else [])

/-- `main.py:566-587` — the stacking order computed for one element group
from its resolved position key and its member names. -/
def stacking_order (pos_key : String) (names : List String) : List String :=
  if pos_key = "bottom_center" ∧ names.length = 2 then
    if "copy" ∈ names then
      "copy" :: (if "cta" ∈ names then ["cta"]
                 else if "logo" ∈ names then ["logo"] else [])
    else if "cta" ∈ names then
      "cta" :: (if "logo" ∈ names then ["logo"] else [])
    else if "logo" ∈ names then ["logo"]
    else []
  else
    (if "logo" ∈ names then ["logo"] else []) ++
    (if "copy" ∈ names then ["copy"] else []) ++
    (if "cta" ∈ names then ["cta"] else [])

/-- `main.py:736` — `stacking_order.index(name)` with fallback 99 for names
not in the stacking order. -/
def stackIndex (order : List String) (name : String) : ℕ :=
  match order.indexOf? name with
  | some i => i
  | none => 99

/-- `main.py:734-737` — the render details sorted by stacking index;
Python's `sorted` is stable, modelled by a stable insertion sort on the
member names (the details list is built in the order logo, copy, cta). -/
def sortedByStack (order : List String) (names : List String) : List String :=
  names.insertionSort (fun a b => stackIndex order a ≤ stackIndex order b)

/-- Modelled from the spec's words (§4.5): default stacking order logo,
copy, cta; for a two-member group resolved exactly at "bottom_center",
priority copy > cta > logo. -/
def specStackOrder (pos_key : String) (names : List String) : List String :=
  if pos_key = "bottom_center" ∧ names.length = 2 then
    ["copy", "cta", "logo"].filter (fun a => names.contains a)
  else
    ["logo", "copy", "cta"].filter (fun a => names.contains a)

/-- C7: for every element group and every resolved position key, the
rendered (top-to-bottom) member sequence equals the spec's order — logo,
copy, cta by default; copy first, else cta, else logo when the key is
exactly "bottom_center" and the group has exactly two members — and in
particular copy plus cta at "bottom_center" render with copy above cta. -/
theorem stacking_order_spec (key : String) (hasLogo hasCopy hasCta : Bool) :
    sortedByStack (stacking_order key (elementNames hasLogo hasCopy hasCta))
        (elementNames hasLogo hasCopy hasCta) =
      specStackOrder key (elementNames hasLogo hasCopy hasCta) ∧
    sortedByStack (stacking_order "bottom_center" (elementNames false true true))
        (elementNames false true true) = ["copy", "cta"] := by
  constructor
  · by_cases hk : key = "bottom_center"
    · subst hk
      cases hasLogo <;> cases hasCopy <;> cases hasCta <;> decide
    · have hcond : ∀ names : List String,
          ¬ (key = "bottom_center" ∧ names.length = 2) := fun _ h => hk h.1
      cases hasLogo <;> cases hasCopy <;> cases hasCta <;>
        · rw [stacking_order, specStackOrder, if_neg (hcond _), if_neg (hcond _)]
          decide
  · decide
